import Mathlib

/-!
Verification of the `warm-fs` crate (`src/lib.rs`), a filesystem warmer:
a `Warmer` holds directory and file targets, a thread count and a
`follow_links` flag; `iter_estimate` streams per-file sizes obtained from
metadata, `iter_warm` streams per-chunk byte counts obtained by reading
each file in 1024-byte chunks, and `estimate` / `warm` sum those streams.

The filesystem is modelled explicitly: each path carries the results the
OS would return (`is_file` / `is_symlink` / `canonicalize` for
`resolve_file`; metadata, open success and a sequence of read results for
the per-file jobs), and directories form a graph of entries traversed by
a fuel-indexed walker mirroring `walkdir` (errors filtered out, symlinks
followed only with `follow_links`, ancestor loop check).

Worker jobs run concurrently in the real program, so the arrival order of
stream values is nondeterministic; the model lists values in submission
order.  All aggregate claims proved here (sums, lengths, membership,
emptiness) are invariant under permutation, so they hold for every
arrival order.
-/

namespace WarmFs

/-- Paths (and directory identities) are abstract names. -/
abbrev Path := Nat

/-- Result of one `file.read(&mut buffer)` call: `ok n` for a successful
read of `n` bytes, `err` for an `io::Error`. -/
inductive ReadResult where
  | ok (n : Nat) : ReadResult
  | err : ReadResult
deriving DecidableEq, Repr

/-- The OS-level behaviour of one regular file: the result of
`metadata().len()` (`none` = metadata error), whether `File::open`
succeeds, and the sequence of results successive `read` calls return
(after the list is exhausted the file is at end-of-file and reads
return 0). -/
structure FileData where
  meta : Option Nat
  opens : Bool
  reads : List ReadResult
deriving DecidableEq, Repr

/-- What the OS reports about a path, as used by `resolve_file`:
`path.is_file()`, `path.is_symlink()`, and the result of
`path.canonicalize()` (`none` = error). -/
structure PathInfo where
  isFile : Bool
  isSymlink : Bool
  canonical : Option Path
deriving DecidableEq, Repr

/-- One entry of a directory, as seen by the `walkdir` traversal:
a regular file (with its OS behaviour), a subdirectory, or a symbolic
link to a directory. -/
inductive Entry where
  | file (fd : FileData) : Entry
  | dir (d : Path) : Entry
  | symlink (target : Path) : Entry
deriving DecidableEq, Repr

/-- The modelled filesystem: `dirs` gives each directory's entry list
(`none` = the path does not exist or cannot be read, in which case
`walkdir` yields a single error entry which `walker` filters out);
`pathInfo` and `fileData` give the per-path OS results used by the
explicit-file jobs. -/
structure FS where
  dirs : Path → Option (List Entry)
  pathInfo : Path → PathInfo
  fileData : Path → FileData

/-- `resolve_file` from `lib.rs`: returns `Ok(Some(path))` for a regular
file, `path.canonicalize().map(Some)` for a symlink (so `Err` when
canonicalization fails), and `Ok(None)` otherwise. -/
def resolve_file (info : Path → PathInfo) (path : Path) : Except Unit (Option Path) :=
  if (info path).isFile then
    Except.ok (some path)
  else if (info path).isSymlink then
    match (info path).canonical with
    | some q => Except.ok (some q)
    | none => Except.error ()
  else
    Except.ok none

/-- The read loop of `warm_file`: each iteration reads into the 1024-byte
buffer, `unwrap_or_default()` turns an error into count 0, a count of 0
breaks the loop, and otherwise the count is sent on the channel.  An
exhausted list means the file is at end-of-file (reads return 0). -/
def readChunks : List ReadResult → List Nat
  | [] => []
  | r :: rs =>
    match r with
    | ReadResult.ok n => if n = 0 then [] else n :: readChunks rs
    | ReadResult.err => []

/-- `warm_file` from `lib.rs`: if `File::open` fails nothing is emitted,
otherwise the chunk counts of the read loop are emitted. -/
def warm_file (fd : FileData) : List Nat :=
  if fd.opens then readChunks fd.reads else []

/-- The body of an estimate-mode job for one walked entry: `Ok(size)`
from `entry.metadata().map(|m| m.len())` is sent, a metadata error sends
nothing. -/
def estimateJob (meta : Option Nat) : List Nat :=
  match meta with
  | some size => [size]
  | none => []

/-- The read results the OS returns for an accessible regular file of
`size` bytes read sequentially into a 1024-byte buffer: each read
returns `min remaining 1024` until the file is exhausted.  The first
argument is fuel; `size` itself is always enough since every read
consumes at least one byte. -/
def fileReadsGo : Nat → Nat → List ReadResult
  | 0, _ => []
  | f + 1, rem =>
    if rem = 0 then [] else ReadResult.ok (min rem 1024) :: fileReadsGo f (rem - min rem 1024)

/-- The full read sequence of an accessible regular file of `size`
bytes: `size` reads is always enough fuel. -/
def fileReads (size : Nat) : List ReadResult :=
  fileReadsGo size size

/-- The `walkdir`-based `walker` from `lib.rs`, traversing the directory
graph from root `d`.  A missing or unreadable directory yields only an
error entry, which `filter_map(|e| e.ok())` removes, so it contributes
nothing.  Non-file entries are filtered by `filter(is_file)`, so the
walk yields exactly the regular files.  Symbolic links are traversed
only when `follow` is set, and `walkdir`'s loop check refuses a link
whose target is the current directory or one of its ancestors (`anc`),
yielding an error entry that is filtered out.  `fuel` bounds the
recursion depth; every claim fixes a sufficient fuel. -/
def walkDir (dirs : Path → Option (List Entry)) (follow : Bool) :
    Nat → List Path → Path → List FileData
  | 0, _, _ => []
  | fuel + 1, anc, d =>
    match dirs d with
    | none => []
    | some es =>
      es.flatMap fun e =>
        match e with
        | Entry.file fd => [fd]
        | Entry.dir d2 => walkDir dirs follow fuel (d :: anc) d2
        | Entry.symlink t =>
          if follow then
            if t ∈ d :: anc then [] else walkDir dirs follow fuel (d :: anc) t
          else []

/-- The `Warmer` struct from `lib.rs`. -/
structure Warmer where
  dirs : List Path
  files : List Path
  num_threads : Nat
  follow_links : Bool
deriving DecidableEq, Repr

/-- `Warmer::new`: stores `num_threads` and `follow_links` unchanged,
with empty target lists (`..Default::default()`). -/
def Warmer.new (num_threads : Nat) (follow_links : Bool) : Warmer :=
  { dirs := [], files := [], num_threads := num_threads, follow_links := follow_links }

/-- `Warmer::default()` (`#[derive(Default)]`): all fields default,
in particular `num_threads = 0`. -/
def Warmer.default : Warmer :=
  { dirs := [], files := [], num_threads := 0, follow_links := false }

/-- `Warmer::add_dirs`: appends the given paths to `dirs`. -/
def Warmer.add_dirs (w : Warmer) (paths : List Path) : Warmer :=
  { w with dirs := w.dirs ++ paths }

/-- `Warmer::add_files`: appends the given paths to `files`. -/
def Warmer.add_files (w : Warmer) (paths : List Path) : Warmer :=
  { w with files := w.files ++ paths }

/-- The estimate-mode job for one explicit file target: `resolve_file`,
then on `Ok(Some(file))` send `file.metadata().len()` if it can be
obtained; in every other case send nothing. -/
def fileEstimateJob (fs : FS) (p : Path) : List Nat :=
  match resolve_file fs.pathInfo p with
  | Except.ok (some q) => estimateJob (fs.fileData q).meta
  | _ => []

/-- The warm-mode job for one explicit file target: `resolve_file`, then
on `Ok(Some(file))` run `warm_file`; in every other case send nothing. -/
def fileWarmJob (fs : FS) (p : Path) : List Nat :=
  match resolve_file fs.pathInfo p with
  | Except.ok (some q) => warm_file (fs.fileData q)
  | _ => []

/-- `Warmer::iter_estimate`: one job per explicit file target, then one
job per file yielded by walking each directory target.  The returned
list is the stream of sent values in submission order (the thread pool
delivers them in some interleaving; every property proved below is
permutation-invariant). -/
def Warmer.iter_estimate (fs : FS) (w : Warmer) (fuel : Nat) : List Nat :=
  w.files.flatMap (fileEstimateJob fs) ++
    w.dirs.flatMap fun d =>
      (walkDir fs.dirs w.follow_links fuel [] d).flatMap fun fd => estimateJob fd.meta

/-- `Warmer::iter_warm`: one `warm_file` job per explicit file target
(after `resolve_file`) and per walked file. -/
def Warmer.iter_warm (fs : FS) (w : Warmer) (fuel : Nat) : List Nat :=
  w.files.flatMap (fileWarmJob fs) ++
    w.dirs.flatMap fun d =>
      (walkDir fs.dirs w.follow_links fuel [] d).flatMap fun fd => warm_file fd

/-- `Warmer::estimate`: `self.iter_estimate().sum()`. -/
def Warmer.estimate (fs : FS) (w : Warmer) (fuel : Nat) : Nat :=
  (w.iter_estimate fs fuel).sum

/-- `Warmer::warm`: `self.iter_warm().sum()`. -/
def Warmer.warm (fs : FS) (w : Warmer) (fuel : Nat) : Nat :=
  (w.iter_warm fs fuel).sum

/-- Prepends an accessible file size to the sizes of the rest of a
directory's entries, failing if either is unavailable. -/
def consSize : Option Nat → Option (List Nat) → Option (List Nat)
  | some s, some L => some (s :: L)
  | _, _ => none

/-- Concatenates a subtree's sizes with the sizes of the remaining
entries, failing if either is unavailable. -/
def appendSizes : Option (List Nat) → Option (List Nat) → Option (List Nat)
  | some L1, some L2 => some (L1 ++ L2)
  | _, _ => none

/-- Checker formalizing the hypothesis of the claim about `estimate` on a
directory tree: the entries form, within the given depth fuel, a
symlink-free tree all of whose files have accessible metadata; returns
the left-to-right list of the tree's file sizes, `none` when the
hypothesis fails. -/
def treeSizesGo (dirs : Path → Option (List Entry)) :
    (fuel : Nat) → (es : List Entry) → Option (List Nat)
  | _, [] => some []
  | fuel, Entry.file fd :: es => consSize fd.meta (treeSizesGo dirs fuel es)
  | 0, Entry.dir _ :: _ => none
  | fuel + 1, Entry.dir d2 :: es =>
    match dirs d2 with
    | none => none
    | some es2 => appendSizes (treeSizesGo dirs fuel es2) (treeSizesGo dirs (fuel + 1) es)
  | _, Entry.symlink _ :: _ => none
termination_by fuel es => (fuel, es)

/-- The file sizes of the directory tree rooted at `d`, when the
structure under `d` is a readable symlink-free tree of depth below
`fuel` with all metadata accessible (`none` otherwise). -/
def rootSizes (dirs : Path → Option (List Entry)) : Nat → Path → Option (List Nat)
  | 0, _ => none
  | fuel + 1, d =>
    match dirs d with
    | none => none
    | some es => treeSizesGo dirs fuel es

lemma walkDir_estimate (dirs : Path → Option (List Entry)) (follow : Bool) :
    ∀ (fuel : Nat) (anc : List Path) (d : Path) (sizes : List Nat),
      rootSizes dirs fuel d = some sizes →
      (walkDir dirs follow fuel anc d).flatMap (fun fd => estimateJob fd.meta) = sizes := by
  intro fuel
  induction fuel with
  | zero =>
    intro anc d sizes h
    simp [rootSizes] at h
  | succ f ihf =>
    intro anc d sizes h
    cases hd : dirs d with
    | none =>
      rw [rootSizes] at h
      simp only [hd] at h
      exact absurd h (by simp)
    | some es =>
      rw [rootSizes] at h
      simp only [hd] at h
      rw [walkDir]
      simp only [hd]
      clear hd
      induction es generalizing sizes with
      | nil =>
        rw [treeSizesGo] at h
        simp_all
      | cons e es ihe =>
        cases e with
        | file fd =>
          rw [treeSizesGo] at h
          cases hm : fd.meta with
          | none => rw [hm] at h; exact absurd h (by simp [consSize])
          | some s =>
            rw [hm] at h
            cases ht : treeSizesGo dirs f es with
            | none => rw [ht] at h; exact absurd h (by simp [consSize])
            | some L =>
              rw [ht] at h
              simp only [consSize, Option.some.injEq] at h
              subst h
              simp only [List.flatMap_cons, List.flatMap_append]
              rw [ihe L ht]
              simp [estimateJob, hm]
        | dir d2 =>
          cases f with
          | zero => rw [treeSizesGo] at h; exact absurd h (by simp)
          | succ f2 =>
            rw [treeSizesGo] at h
            cases hd2 : dirs d2 with
            | none =>
              simp only [hd2] at h
              exact absurd h (by simp)
            | some es2 =>
              simp only [hd2] at h
              cases h1 : treeSizesGo dirs f2 es2 with
              | none => rw [h1] at h; exact absurd h (by simp [appendSizes])
              | some L1 =>
                cases h2 : treeSizesGo dirs (f2 + 1) es with
                | none => rw [h1, h2] at h; exact absurd h (by simp [appendSizes])
                | some L2 =>
                  rw [h1, h2] at h
                  simp only [appendSizes, Option.some.injEq] at h
                  subst h
                  simp only [List.flatMap_cons, List.flatMap_append]
                  rw [ihe L2 h2]
                  have hroot : rootSizes dirs (f2 + 1) d2 = some L1 := by
                    rw [rootSizes, hd2]; exact h1
                  rw [ihf (d :: anc) d2 L1 hroot]
        | symlink t =>
          rw [treeSizesGo] at h
          exact absurd h (by simp)

/-- C1: For every directory tree containing N regular files of sizes
s1..sN, all accessible, `estimate()` on a session whose targets cover
that tree returns exactly s1+...+sN.  The hypothesis
`rootSizes fs.dirs fuel root = some sizes` says exactly that the
structure under `root` is a readable symlink-free tree (of depth below
`fuel`) whose files have accessible metadata with sizes `sizes`. -/
theorem estimate_eq_tree_size_sum (fs : FS) (root : Path) (k fuel : Nat) (fl : Bool)
    (sizes : List Nat) (h : rootSizes fs.dirs fuel root = some sizes) :
    Warmer.estimate fs ((Warmer.new k fl).add_dirs [root]) fuel = sizes.sum := by
  unfold Warmer.estimate Warmer.iter_estimate
  simp only [Warmer.new, Warmer.add_dirs, List.nil_append, List.flatMap_nil,
    List.flatMap_cons, List.append_nil]
  rw [walkDir_estimate fs.dirs fl fuel [] root sizes h]

/-- The end-to-end scenario of the spec: `root/{a.txt (500 bytes),
sub/b.txt (2000 bytes)}`, all metadata accessible. -/
def exTreeFS : FS where
  dirs := fun p =>
    if p = 0 then some [Entry.file ⟨some 500, true, []⟩, Entry.dir 1]
    else if p = 1 then some [Entry.file ⟨some 2000, true, []⟩]
    else none
  pathInfo := fun _ => ⟨false, false, none⟩
  fileData := fun _ => ⟨none, false, []⟩

theorem estimate_eq_tree_size_sum_witness :
    Warmer.estimate exTreeFS ((Warmer.new 4 false).add_dirs [0]) 2 = 2500 := by
  have h : rootSizes exTreeFS.dirs 2 0 = some [500, 2000] := by
    simp [exTreeFS, rootSizes, treeSizesGo, consSize, appendSizes]
  have hmain := estimate_eq_tree_size_sum exTreeFS 0 4 2 false [500, 2000] h
  simpa using hmain

/-- The chunk sizes `warm_file` emits for a file of `size` bytes read
without errors: full 1024-byte chunks followed by the remainder. -/
def warmChunks (size : Nat) : List Nat :=
  List.replicate (size / 1024) 1024 ++ if size % 1024 = 0 then [] else [size % 1024]

lemma readChunks_fileReadsGo : ∀ f rem : Nat, rem ≤ f →
    readChunks (fileReadsGo f rem) = warmChunks rem := by
  intro f
  induction f with
  | zero =>
    intro rem hle
    have h0 : rem = 0 := Nat.le_zero.mp hle
    subst h0
    simp [fileReadsGo, readChunks, warmChunks]
  | succ f ih =>
    intro rem hle
    by_cases h0 : rem = 0
    · subst h0
      simp [fileReadsGo, readChunks, warmChunks]
    · rw [fileReadsGo, if_neg h0, readChunks]
      have hminpos : ¬ min rem 1024 = 0 := by
        simp only [Nat.min_eq_zero_iff]
        omega
      rw [if_neg hminpos]
      by_cases hbig : 1024 < rem
      · have hmin : min rem 1024 = 1024 := by omega
        rw [hmin, ih (rem - 1024) (by omega)]
        have hdiv : rem / 1024 = (rem - 1024) / 1024 + 1 := by omega
        have hmod : rem % 1024 = (rem - 1024) % 1024 := by omega
        rw [warmChunks, warmChunks, hdiv, hmod, List.replicate_succ, List.cons_append]
      · have hmin : min rem 1024 = rem := by omega
        rw [hmin, Nat.sub_self]
        have hrc : readChunks (fileReadsGo f 0) = [] := by
          cases f <;> simp [fileReadsGo, readChunks]
        rw [hrc]
        by_cases hfull : rem = 1024
        · subst hfull
          simp [warmChunks]
        · have hdiv : rem / 1024 = 0 := Nat.div_eq_of_lt (by omega)
          have hmod : rem % 1024 = rem := Nat.mod_eq_of_lt (by omega)
          rw [warmChunks, hdiv, hmod, if_neg h0]
          simp

lemma readChunks_fileReads (S : Nat) : readChunks (fileReads S) = warmChunks S :=
  readChunks_fileReadsGo S S le_rfl

lemma warmChunks_sum (S : Nat) : (warmChunks S).sum = S := by
  by_cases h : S % 1024 = 0 <;>
    simp [warmChunks, h, List.sum_replicate, smul_eq_mul] <;> omega

lemma warmChunks_length (S : Nat) : (warmChunks S).length = (S + 1023) / 1024 := by
  by_cases h : S % 1024 = 0 <;> simp [warmChunks, h] <;> omega

lemma warmChunks_dropLast (S : Nat) : ∀ c ∈ (warmChunks S).dropLast, c = 1024 := by
  intro c hc
  by_cases h : S % 1024 = 0
  · have hmem := List.mem_of_mem_dropLast hc
    rw [warmChunks, if_pos h, List.append_nil] at hmem
    exact List.eq_of_mem_replicate hmem
  · rw [warmChunks, if_neg h, List.dropLast_concat] at hc
    exact List.eq_of_mem_replicate hc

lemma warmChunks_le (S : Nat) : ∀ c ∈ warmChunks S, c ≤ 1024 := by
  intro c hc
  by_cases h : S % 1024 = 0
  · rw [warmChunks, if_pos h, List.append_nil] at hc
    rw [List.eq_of_mem_replicate hc]
  · rw [warmChunks, if_neg h] at hc
    rcases List.mem_append.mp hc with hrep | hlast
    · rw [List.eq_of_mem_replicate hrep]
    · have : c = S % 1024 := by simpa using hlast
      have := Nat.mod_lt S (show 0 < 1024 by omega)
      omega

/-- C2: For every single readable regular file of size S, on a session
targeting only that file, `warm()` returns S and the warm stream emits
exactly ⌈S/1024⌉ values (0 for an empty file), each 1024 except a
possibly smaller final chunk. -/
theorem warm_single_file (fs : FS) (p : Path) (k fuel S : Nat) (fl : Bool)
    (hfile : (fs.pathInfo p).isFile = true)
    (hopen : (fs.fileData p).opens = true)
    (hreads : (fs.fileData p).reads = fileReads S) :
    Warmer.warm fs ((Warmer.new k fl).add_files [p]) fuel = S ∧
      (Warmer.iter_warm fs ((Warmer.new k fl).add_files [p]) fuel).length = (S + 1023) / 1024 ∧
      (∀ c ∈ (Warmer.iter_warm fs ((Warmer.new k fl).add_files [p]) fuel).dropLast, c = 1024) ∧
      (∀ c ∈ Warmer.iter_warm fs ((Warmer.new k fl).add_files [p]) fuel, c ≤ 1024) := by
  have hiter : Warmer.iter_warm fs ((Warmer.new k fl).add_files [p]) fuel = warmChunks S := by
    unfold Warmer.iter_warm fileWarmJob
    simp [Warmer.new, Warmer.add_files, resolve_file, hfile, warm_file, hopen, hreads,
      readChunks_fileReads]
  refine ⟨?_, ?_, ?_, ?_⟩
  · rw [Warmer.warm, hiter, warmChunks_sum]
  · rw [hiter, warmChunks_length]
  · rw [hiter]; exact warmChunks_dropLast S
  · rw [hiter]; exact warmChunks_le S

/-- A filesystem with a single regular file (path 0) of 2500 bytes that
opens and reads without errors. -/
def exWarmFS : FS where
  dirs := fun _ => none
  pathInfo := fun _ => ⟨true, false, none⟩
  fileData := fun _ => ⟨some 2500, true, fileReads 2500⟩

theorem warm_single_file_witness :
    Warmer.warm exWarmFS ((Warmer.new 4 false).add_files [0]) 1 = 2500 :=
  (warm_single_file exWarmFS 0 4 1 2500 false rfl rfl rfl).1

/-- C3: In estimate mode, for every target file whose metadata can be
obtained, exactly one byte count equal to the file's size is emitted;
if metadata cannot be obtained, nothing is emitted.  That the count is
computed from metadata only (contents never read) is structural in the
model: `estimateJob` takes only the metadata result as input, and
neither `opens` nor `reads` occurs in `Warmer.iter_estimate`. -/
theorem estimate_job_emits_size (fs : FS) (p : Path) (s : Nat) :
    estimateJob (some s) = [s] ∧ estimateJob none = [] ∧
      ((fs.pathInfo p).isFile = true → (fs.fileData p).meta = some s →
        fileEstimateJob fs p = [s]) ∧
      ((fs.pathInfo p).isFile = true → (fs.fileData p).meta = none →
        fileEstimateJob fs p = []) := by
  refine ⟨rfl, rfl, ?_, ?_⟩ <;> intro hfile hmeta <;>
    simp [fileEstimateJob, resolve_file, hfile, hmeta, estimateJob]

theorem estimate_job_emits_size_witness :
    fileEstimateJob exWarmFS 0 = [2500] :=
  (estimate_job_emits_size exWarmFS 0 2500).2.2.1 rfl rfl

lemma readChunks_until_err : ∀ (counts : List Nat) (rest : List ReadResult),
    (∀ c ∈ counts, 0 < c) →
    readChunks (counts.map ReadResult.ok ++ ReadResult.err :: rest) = counts := by
  intro counts
  induction counts with
  | nil => intro rest h; simp [readChunks]
  | cons c cs ih =>
    intro rest h
    rw [List.map_cons, List.cons_append, readChunks]
    have hc : ¬ c = 0 := by
      have := h c (List.mem_cons_self c cs)
      omega
    rw [if_neg hc, ih rest fun x hx => h x (List.mem_cons_of_mem c hx)]

/-- C4: In warm mode, for every file that cannot be opened the job emits
no values; and for every file where an error occurs mid-read, emission
stops at that point as if end-of-file were reached.  No error is
propagated to the caller: the job's output is a plain list of byte
counts (here exactly the counts read before the error), never an error
value. -/
theorem warm_file_best_effort (fd fd2 : FileData) (counts : List Nat)
    (rest : List ReadResult)
    (hclosed : fd.opens = false)
    (hopen : fd2.opens = true)
    (hreads : fd2.reads = counts.map ReadResult.ok ++ ReadResult.err :: rest)
    (hpos : ∀ c ∈ counts, 0 < c) :
    warm_file fd = [] ∧ warm_file fd2 = counts := by
  constructor
  · rw [warm_file, hclosed]
    simp
  · rw [warm_file, hopen]
    simp only [if_true]
    rw [hreads, readChunks_until_err counts rest hpos]

theorem warm_file_best_effort_witness :
    warm_file ⟨none, false, []⟩ = [] ∧
      warm_file ⟨none, true,
        [ReadResult.ok 1024, ReadResult.ok 10, ReadResult.err, ReadResult.ok 5]⟩ =
        [1024, 10] :=
  warm_file_best_effort ⟨none, false, []⟩
    ⟨none, true, [ReadResult.ok 1024, ReadResult.ok 10, ReadResult.err, ReadResult.ok 5]⟩
    [1024, 10] [ReadResult.ok 5] rfl rfl rfl (by decide)

lemma readChunks_bounds : ∀ reads : List ReadResult,
    (∀ n, ReadResult.ok n ∈ reads → n ≤ 1024) →
    ∀ c ∈ readChunks reads, 1 ≤ c ∧ c ≤ 1024 := by
  intro reads
  induction reads with
  | nil => intro _ c hc; simp [readChunks] at hc
  | cons r rs ih =>
    intro hb c hc
    cases r with
    | ok n =>
      rw [readChunks] at hc
      by_cases hn : n = 0
      · rw [if_pos hn] at hc; simp at hc
      · rw [if_neg hn] at hc
        rcases List.mem_cons.mp hc with hcn | hcs
        · subst hcn
          have := hb c (List.mem_cons_self _ _)
          omega
        · exact ih (fun m hm => hb m (List.mem_cons_of_mem _ hm)) c hcs
    | err => rw [readChunks] at hc; simp at hc

/-- C10: Every value emitted by a warm job is at least 1 and at most
1024: a zero-length read terminates the job without sending, and a read
into the fixed 1024-byte buffer returns at most 1024 bytes (the bound
hypothesis on `reads`); whereas an estimate job does emit 0 for an
empty file. -/
theorem warm_values_bounded (fd : FileData)
    (hbuf : ∀ n, ReadResult.ok n ∈ fd.reads → n ≤ 1024) :
    (∀ c ∈ warm_file fd, 1 ≤ c ∧ c ≤ 1024) ∧ estimateJob (some 0) = [0] := by
  refine ⟨?_, rfl⟩
  intro c hc
  rw [warm_file] at hc
  by_cases ho : fd.opens
  · rw [if_pos ho] at hc
    exact readChunks_bounds fd.reads hbuf c hc
  · rw [if_neg ho] at hc
    simp at hc

theorem warm_values_bounded_witness :
    (∀ c ∈ warm_file ⟨none, true, [ReadResult.ok 1024, ReadResult.ok 500]⟩,
      1 ≤ c ∧ c ≤ 1024) ∧ estimateJob (some 0) = [0] :=
  warm_values_bounded ⟨none, true, [ReadResult.ok 1024, ReadResult.ok 500]⟩
    (by intro n hn; simp at hn; rcases hn with h | h <;> omega)

/-- C5: A target path that does not exist (neither a regular file nor a
symlink, no directory listing) or cannot be resolved (a symlink whose
canonicalization fails) contributes 0 bytes in both estimate and warm
runs, aborts nothing, and surfaces no error: the streams produced for a
session targeting it both as a file and as a directory are empty, and
the model's streams carry only byte counts — no error value can cross
the session boundary (`Iter` yields `u64` only). -/
theorem missing_path_contributes_zero (fs : FS) (p : Path) (k fuel : Nat) (fl : Bool)
    (hnf : (fs.pathInfo p).isFile = false)
    (hcan : (fs.pathInfo p).isSymlink = true → (fs.pathInfo p).canonical = none)
    (hdir : fs.dirs p = none) :
    Warmer.iter_estimate fs (((Warmer.new k fl).add_dirs [p]).add_files [p]) fuel = [] ∧
      Warmer.iter_warm fs (((Warmer.new k fl).add_dirs [p]).add_files [p]) fuel = [] ∧
      Warmer.estimate fs (((Warmer.new k fl).add_dirs [p]).add_files [p]) fuel = 0 ∧
      Warmer.warm fs (((Warmer.new k fl).add_dirs [p]).add_files [p]) fuel = 0 := by
  have hres : ∀ q, resolve_file fs.pathInfo p ≠ Except.ok (some q) := by
    intro q
    rw [resolve_file, if_neg (by simp [hnf])]
    by_cases hs : (fs.pathInfo p).isSymlink = true
    · rw [if_pos (by simp [hs]), hcan hs]
      simp
    · rw [if_neg (by simpa using hs)]
      simp
  have hwalk : walkDir fs.dirs fl fuel [] p = [] := by
    cases fuel with
    | zero => rw [walkDir]
    | succ f =>
      rw [walkDir]
      simp [hdir]
  have hfe : fileEstimateJob fs p = [] := by
    rw [fileEstimateJob]
    cases hr : resolve_file fs.pathInfo p with
    | ok o =>
      cases o with
      | none => rfl
      | some q => exact absurd hr (hres q)
    | error e => rfl
  have hfw : fileWarmJob fs p = [] := by
    rw [fileWarmJob]
    cases hr : resolve_file fs.pathInfo p with
    | ok o =>
      cases o with
      | none => rfl
      | some q => exact absurd hr (hres q)
    | error e => rfl
  have he : Warmer.iter_estimate fs (((Warmer.new k fl).add_dirs [p]).add_files [p]) fuel = [] := by
    rw [Warmer.iter_estimate]
    simp [Warmer.new, Warmer.add_dirs, Warmer.add_files, hfe, hwalk]
  have hw : Warmer.iter_warm fs (((Warmer.new k fl).add_dirs [p]).add_files [p]) fuel = [] := by
    rw [Warmer.iter_warm]
    simp [Warmer.new, Warmer.add_dirs, Warmer.add_files, hfw, hwalk]
  exact ⟨he, hw, by rw [Warmer.estimate, he]; rfl, by rw [Warmer.warm, hw]; rfl⟩

/-- A filesystem in which no path exists at all. -/
def emptyFS : FS where
  dirs := fun _ => none
  pathInfo := fun _ => ⟨false, false, none⟩
  fileData := fun _ => ⟨none, false, []⟩

theorem missing_path_contributes_zero_witness :
    Warmer.estimate emptyFS (((Warmer.new 4 false).add_dirs [7]).add_files [7]) 3 = 0 :=
  (missing_path_contributes_zero emptyFS 7 4 3 false rfl (fun h => by cases h) rfl).2.2.1

/-- C9 counterexample: the public constructor `Warmer::new` accepts
`num_threads = 0` and stores it unchanged, so a session whose
concurrency limit is 0 — not ≥ 1 — is constructible through the public
API (and `ThreadPool::new(0)` would fail a run). -/
theorem warmer_new_accepts_zero :
    (Warmer.new 0 false).num_threads = 0 ∧ ¬ 1 ≤ (Warmer.new 0 false).num_threads :=
  ⟨rfl, by decide⟩

/-- C9 amended: the public API does not validate the concurrency limit:
`Warmer::new` stores any `num_threads`, including 0, unchanged (and
`Warmer::default()` yields 0); adding targets never changes it. -/
theorem num_threads_unvalidated (n : Nat) (fl : Bool) (ds fls : List Path) :
    (Warmer.new n fl).num_threads = n ∧
      Warmer.default.num_threads = 0 ∧
      (((Warmer.new n fl).add_dirs ds).add_files fls).num_threads = n :=
  ⟨rfl, rfl, rfl⟩

/-- A regular-file entry with accessible metadata of the given size. -/
def fileEntry (s : Nat) : Entry :=
  Entry.file ⟨some s, true, []⟩

/-- Directory 0 holds files of sizes `f0` and a symlink to directory 1,
which holds files of sizes `f1`. -/
def linkFS (f0 f1 : List Nat) : FS where
  dirs := fun p =>
    if p = 0 then some (f0.map fileEntry ++ [Entry.symlink 1])
    else if p = 1 then some (f1.map fileEntry) else none
  pathInfo := fun _ => ⟨false, false, none⟩
  fileData := fun _ => ⟨none, false, []⟩

/-- Directory 0 holds files of sizes `f0` and a symlink back to
directory 0 itself: a cyclic symlink structure. -/
def cycleFS (f0 : List Nat) : FS where
  dirs := fun p =>
    if p = 0 then some (f0.map fileEntry ++ [Entry.symlink 0]) else none
  pathInfo := fun _ => ⟨false, false, none⟩
  fileData := fun _ => ⟨none, false, []⟩

lemma flatMap_fileEntry_estimate (L : List Nat) (g : Entry → List FileData)
    (hg : ∀ s, g (fileEntry s) = [⟨some s, true, []⟩]) :
    ((L.map fileEntry).flatMap g).flatMap (fun fd => estimateJob fd.meta) = L := by
  induction L with
  | nil => simp
  | cons s L ih =>
    simp only [List.map_cons, List.flatMap_cons, List.flatMap_append, hg]
    rw [ih]
    rfl

/-- C6: For a directory target containing a symlink to another
directory: with `followLinks = false` the symlink target's files are
not counted; with `followLinks = true` they are counted exactly once
(the stream is exactly `f0 ++ f1`), and the run terminates even when
the symlink structure is cyclic — the walk's output is the same for
every fuel ≥ 2, with the loop-checked symlink contributing the target's
files exactly once resp. nothing on the cycle. -/
theorem symlink_follow_policy (f0 f1 : List Nat) (k fuel : Nat) (h2 : 2 ≤ fuel) :
    Warmer.iter_estimate (linkFS f0 f1) ((Warmer.new k false).add_dirs [0]) fuel = f0 ∧
      Warmer.iter_estimate (linkFS f0 f1) ((Warmer.new k true).add_dirs [0]) fuel = f0 ++ f1 ∧
      Warmer.iter_estimate (cycleFS f0) ((Warmer.new k true).add_dirs [0]) fuel = f0 := by
  obtain ⟨f, rfl⟩ : ∃ f, fuel = f + 2 := ⟨fuel - 2, by omega⟩
  refine ⟨?_, ?_, ?_⟩ <;>
    simp only [Warmer.iter_estimate, Warmer.new, Warmer.add_dirs, List.nil_append,
      List.flatMap_nil, List.flatMap_cons, List.append_nil] <;>
    rw [show f + 2 = (f + 1) + 1 from rfl, walkDir]
  · have hd : (linkFS f0 f1).dirs 0 = some (f0.map fileEntry ++ [Entry.symlink 1]) := rfl
    simp only [hd, List.flatMap_append, List.flatMap_cons, List.flatMap_nil, List.append_nil]
    rw [flatMap_fileEntry_estimate f0]
    · simp
    · intro s; rfl
  · have hd : (linkFS f0 f1).dirs 0 = some (f0.map fileEntry ++ [Entry.symlink 1]) := rfl
    simp only [hd, List.flatMap_append, List.flatMap_cons, List.flatMap_nil, List.append_nil]
    rw [flatMap_fileEntry_estimate f0]
    · have hmem : ¬ (1 : Path) ∈ [(0 : Path)] := by simp
      simp only [if_pos rfl, if_neg hmem]
      rw [walkDir]
      have hd2 : (linkFS f0 f1).dirs 1 = some (f1.map fileEntry) := rfl
      simp only [hd2, if_true]
      rw [flatMap_fileEntry_estimate f1]
      intro s; rfl
    · intro s; rfl
  · have hd : (cycleFS f0).dirs 0 = some (f0.map fileEntry ++ [Entry.symlink 0]) := rfl
    simp only [hd, List.flatMap_append, List.flatMap_cons, List.flatMap_nil, List.append_nil]
    rw [flatMap_fileEntry_estimate f0]
    · have hmem : (0 : Path) ∈ [(0 : Path)] := by simp
      simp only [if_pos rfl, if_pos hmem]
      simp
    · intro s; rfl

theorem symlink_follow_policy_witness :
    Warmer.iter_estimate (linkFS [3] [7]) ((Warmer.new 1 false).add_dirs [0]) 2 = [3] ∧
      Warmer.iter_estimate (linkFS [3] [7]) ((Warmer.new 1 true).add_dirs [0]) 2 = [3, 7] ∧
      Warmer.iter_estimate (cycleFS [3]) ((Warmer.new 1 true).add_dirs [0]) 2 = [3] :=
  symlink_follow_policy [3] [7] 1 2 (by decide)

/-- Modelled from the spec: the `ThreadPool` used by the runs is an
external crate, absent from the source; its contract is "`submit(job)`
enqueues a unit of work; the pool guarantees at most `numThreads` jobs
execute concurrently and executes all submitted jobs eventually".  A
pool run's state counts the jobs the coordinator has yet to submit, the
submitted-but-not-started jobs, the running jobs, and the finished
jobs. -/
structure PoolState where
  toSubmit : Nat
  pending : Nat
  running : Nat
  done : Nat
deriving DecidableEq, Repr

/-- Modelled from the spec: the events of a pool run with concurrency
limit `k`: the coordinator submits a job; the pool starts a queued job
when fewer than `k` are running; a running job finishes. -/
inductive PoolStep (k : Nat) : PoolState → PoolState → Prop where
  | submit (t p r d : Nat) :
      PoolStep k ⟨t + 1, p, r, d⟩ ⟨t, p + 1, r, d⟩
  | start (t p r d : Nat) : r < k →
      PoolStep k ⟨t, p + 1, r, d⟩ ⟨t, p, r + 1, d⟩
  | finish (t p r d : Nat) :
      PoolStep k ⟨t, p, r + 1, d⟩ ⟨t, p, r, d + 1⟩

/-- A run starts with all jobs still to submit and nothing running. -/
def poolInit (jobs : Nat) : PoolState :=
  ⟨jobs, 0, 0, 0⟩

/-- The states a pool run with `jobs` jobs and limit `k` can reach. -/
def PoolReachable (k jobs : Nat) (s : PoolState) : Prop :=
  Relation.ReflTransGen (PoolStep k) (poolInit jobs) s

/-- No event is possible: the run can make no further progress. -/
def PoolStuck (k : Nat) (s : PoolState) : Prop :=
  ∀ s2, ¬ PoolStep k s s2

lemma poolReachable_inv (k jobs : Nat) (s : PoolState)
    (h : PoolReachable k jobs s) :
    s.running ≤ k ∧ s.toSubmit + s.pending + s.running + s.done = jobs := by
  induction h with
  | refl => simp [poolInit]
  | tail hab hbc ih =>
    obtain ⟨ih1, ih2⟩ := ih
    cases hbc with
    | submit t p r d => simp_all <;> omega
    | start t p r d hr => simp_all <;> omega
    | finish t p r d => simp_all <;> omega

lemma poolStep_measure (k : Nat) (s s2 : PoolState) (h : PoolStep k s s2) :
    3 * s2.toSubmit + 2 * s2.pending + s2.running < 3 * s.toSubmit + 2 * s.pending + s.running := by
  cases h with
  | submit t p r d => simp <;> omega
  | start t p r d hr => simp <;> omega
  | finish t p r d => simp <;> omega

/-- C7: For every run with concurrency limit `numThreads = k ≥ 1`, at
most `k` worker jobs execute concurrently at any reachable moment, and
every submitted job is eventually executed: no infinite execution
exists, and a run that can make no further step has completed all
`jobs` jobs (none is dropped). -/
theorem pool_bounded_and_complete (k jobs : Nat) (hk : 1 ≤ k) :
    (∀ s, PoolReachable k jobs s → s.running ≤ k) ∧
      (∀ s, PoolReachable k jobs s → PoolStuck k s → s.done = jobs) ∧
      (∀ f : Nat → PoolState, ¬ ∀ i, PoolStep k (f i) (f (i + 1))) := by
  refine ⟨fun s hs => (poolReachable_inv k jobs s hs).1, ?_, ?_⟩
  · intro s hs hstuck
    obtain ⟨hrun, hsum⟩ := poolReachable_inv k jobs s hs
    obtain ⟨t, p, r, d⟩ := s
    have ht : t = 0 := by
      by_contra hne
      obtain ⟨t2, rfl⟩ : ∃ t2, t = t2 + 1 := ⟨t - 1, by omega⟩
      exact hstuck _ (PoolStep.submit t2 p r d)
    subst ht
    have hr : r = 0 ∧ p = 0 := by
      constructor
      · by_contra hne
        obtain ⟨r2, rfl⟩ : ∃ r2, r = r2 + 1 := ⟨r - 1, by omega⟩
        exact hstuck _ (PoolStep.finish 0 p r2 d)
      · by_contra hne
        obtain ⟨p2, rfl⟩ : ∃ p2, p = p2 + 1 := ⟨p - 1, by omega⟩
        rcases Nat.lt_or_ge r k with hlt | hge
        · exact hstuck _ (PoolStep.start 0 p2 r d hlt)
        · obtain ⟨r2, rfl⟩ : ∃ r2, r = r2 + 1 := ⟨r - 1, by omega⟩
          exact hstuck _ (PoolStep.finish 0 (p2 + 1) r2 d)
    obtain ⟨hr0, hp0⟩ := hr
    subst hr0; subst hp0
    simpa using hsum
  · intro f hf
    have hmono : ∀ i, 3 * (f (i + 1)).toSubmit + 2 * (f (i + 1)).pending + (f (i + 1)).running <
        3 * (f i).toSubmit + 2 * (f i).pending + (f i).running :=
      fun i => poolStep_measure k (f i) (f (i + 1)) (hf i)
    have hbound : ∀ n, 3 * (f n).toSubmit + 2 * (f n).pending + (f n).running + n ≤
        3 * (f 0).toSubmit + 2 * (f 0).pending + (f 0).running := by
      intro n
      induction n with
      | zero => omega
      | succ m ih =>
        have := hmono m
        omega
    have := hbound (3 * (f 0).toSubmit + 2 * (f 0).pending + (f 0).running + 1)
    omega

theorem pool_bounded_and_complete_witness :
    (∀ s, PoolReachable 2 3 s → s.running ≤ 2) ∧
      (∀ s, PoolReachable 2 3 s → PoolStuck 2 s → s.done = 3) ∧
      (∀ f : Nat → PoolState, ¬ ∀ i, PoolStep 2 (f i) (f (i + 1))) :=
  pool_bounded_and_complete 2 3 (by decide)

/-- Modelled from the spec: the mpsc channel and thread lifecycle of one
run are provided by the standard library, absent from the source.  The
state tracks the jobs the coordinator has yet to submit, submitted and
running jobs (each holding a cloned `Sender`), whether the coordinator
thread still holds the original `Sender`, the values buffered in the
channel, and whether the consumer still holds the `Receiver`. -/
structure RunState where
  toSubmit : Nat
  pending : Nat
  running : Nat
  coordAlive : Bool
  queue : List Nat
  receiverOpen : Bool
deriving DecidableEq, Repr

/-- Live `Sender` handles: one per submitted-but-unfinished job plus the
coordinator's original. -/
def senders (s : RunState) : Nat :=
  s.pending + s.running + (if s.coordAlive then 1 else 0)

/-- The channel state a job's `tx.send(v).ok()` leaves behind: the value
is buffered while the receiver lives and silently dropped otherwise;
the call itself always returns. -/
def sendValue (s : RunState) (v : Nat) : RunState :=
  { s with queue := if s.receiverOpen then s.queue ++ [v] else s.queue }

/-- Modelled from the spec: the events of one run.  The coordinator
submits jobs (cloning the sender per job) and drops the original sender
when done; jobs start, send values and finish (dropping their clone);
the consumer receives buffered values or drops the stream early. -/
inductive RunStep : RunState → RunState → Prop where
  | submit (t p r : Nat) (c : Bool) (q : List Nat) (ro : Bool) :
      RunStep ⟨t + 1, p, r, c, q, ro⟩ ⟨t, p + 1, r, c, q, ro⟩
  | coordExit (p r : Nat) (q : List Nat) (ro : Bool) :
      RunStep ⟨0, p, r, true, q, ro⟩ ⟨0, p, r, false, q, ro⟩
  | start (t p r : Nat) (c : Bool) (q : List Nat) (ro : Bool) :
      RunStep ⟨t, p + 1, r, c, q, ro⟩ ⟨t, p, r + 1, c, q, ro⟩
  | send (v : Nat) (s : RunState) : 1 ≤ s.running →
      RunStep s (sendValue s v)
  | finish (t p r : Nat) (c : Bool) (q : List Nat) (ro : Bool) :
      RunStep ⟨t, p, r + 1, c, q, ro⟩ ⟨t, p, r, c, q, ro⟩
  | recvValue (t p r : Nat) (c : Bool) (v : Nat) (q : List Nat) :
      RunStep ⟨t, p, r, c, v :: q, true⟩ ⟨t, p, r, c, q, true⟩
  | dropReceiver (t p r : Nat) (c : Bool) (q : List Nat) :
      RunStep ⟨t, p, r, c, q, true⟩ ⟨t, p, r, c, q, false⟩

/-- A run over `jobs` target files starts with everything to submit, the
coordinator alive, an empty channel and a live receiver. -/
def runInit (jobs : Nat) : RunState :=
  ⟨jobs, 0, 0, true, [], true⟩

/-- The states a run over `jobs` files can reach. -/
def RunReachable (jobs : Nat) (s : RunState) : Prop :=
  Relation.ReflTransGen RunStep (runInit jobs) s

/-- `Iter::next` (`self.rx.recv().ok()`) observes end-of-stream exactly
when the channel holds no buffered value and every `Sender` handle has
been dropped (this is when `recv()` returns `Err`). -/
def EndOfStream (s : RunState) : Prop :=
  s.queue = [] ∧ senders s = 0

lemma runReachable_coord_inv (jobs : Nat) (s : RunState)
    (h : RunReachable jobs s) : s.coordAlive = false → s.toSubmit = 0 := by
  induction h with
  | refl => simp [runInit]
  | tail hab hbc ih =>
    cases hbc with
    | submit t p r c q ro => simp_all
    | coordExit p r q ro => simp_all
    | start t p r c q ro => simp_all
    | send v hr =>
      intro hc
      simp only [sendValue] at hc ⊢
      exact ih hc
    | finish t p r c q ro => simp_all
    | recvValue t p r c v q => simp_all
    | dropReceiver t p r c q => simp_all

/-- C8: The stream reports end-of-stream only after the coordinator has
submitted all jobs and exited and every submitted job has completed and
released its sender handle; and a send onto a closed receiver is
silently dropped rather than blocking or failing: the send event is
enabled for any running job regardless of the receiver, and leaves the
state unchanged when the receiver is gone, so a caller that stops
consuming early never blocks the surviving background work. -/
theorem end_of_stream_after_completion (jobs : Nat) (s : RunState)
    (hreach : RunReachable jobs s) (hend : EndOfStream s) :
    (s.toSubmit = 0 ∧ s.pending = 0 ∧ s.running = 0 ∧ s.coordAlive = false) ∧
      (∀ s2 : RunState, ∀ v, 1 ≤ s2.running →
        RunStep s2 (sendValue s2 v) ∧
          (s2.receiverOpen = false → sendValue s2 v = s2)) := by
  constructor
  · obtain ⟨hq, hs⟩ := hend
    rw [senders] at hs
    have hc : s.coordAlive = false := by
      by_contra hcon
      rw [Bool.not_eq_false] at hcon
      rw [hcon] at hs
      simp at hs
    refine ⟨runReachable_coord_inv jobs s hreach hc, ?_, ?_, hc⟩ <;> omega
  · intro s2 v hr
    obtain ⟨t, p, r, c, q, ro⟩ := s2
    refine ⟨RunStep.send v _ hr, ?_⟩
    intro hro
    simp only at hro
    subst hro
    rw [sendValue]
    simp

theorem end_of_stream_after_completion_witness :
    ((RunState.mk 0 0 0 false [] true).toSubmit = 0 ∧
        (RunState.mk 0 0 0 false [] true).pending = 0 ∧
        (RunState.mk 0 0 0 false [] true).running = 0 ∧
        (RunState.mk 0 0 0 false [] true).coordAlive = false) ∧
      (∀ s2 : RunState, ∀ v, 1 ≤ s2.running →
        RunStep s2 (sendValue s2 v) ∧
          (s2.receiverOpen = false → sendValue s2 v = s2)) :=
  end_of_stream_after_completion 0 ⟨0, 0, 0, false, [], true⟩
    (Relation.ReflTransGen.single (RunStep.coordExit 0 0 [] true)) ⟨rfl, rfl⟩

end WarmFs
